import Mathlib

/-!
Verification of the name-resolution and grade-extraction core of a
voice-based grading system.  The Python source (`src/name_matcher.py`,
`src/parser.py`, `src/utils.py`, `config.py`) is shallowly embedded
below: pure functions become Lean functions over `String` / `List Char`,
the structured-logging side effects become an explicit list of emitted
events (`ENABLE_STRUCTURED_LOGGING` is `True` in `config.py`), and the
external third-party libraries (pypinyin's `lazy_pinyin`, `cn2an`) are
treated as parameters of the embedding, instantiated with concrete
sample tables for the characters appearing in examples.
-/

set_option maxRecDepth 100000

namespace VoiceGrading

/-! ### Configuration constants (`config.py`, `name_matcher.py`) -/

/-- Noise words stripped from candidate names
(`NAME_NOISE_WORDS` in `src/name_matcher.py`). -/
def NAME_NOISE_WORDS : List String := ["证券", "队伍", "实物", "成绩", "同学", "同学的", "的"]

/-- Keywords announcing the count of correct answers
(`CORRECT_KEYWORDS` in `config.py`). -/
def CORRECT_KEYWORDS : List String := ["对", "正确"]

/-- Keywords announcing the count of wrong answers
(`WRONG_KEYWORDS` in `config.py`). -/
def WRONG_KEYWORDS : List String := ["错", "错误"]

/-! ### Basic string machinery shared by the embedding -/

/-- Python's `s.startswith(pre)` on code points. -/
def strStartsWith (s pre : String) : Bool := pre.data.isPrefixOf s.data

/-- Trim whitespace from both ends, modelling Python's `str.strip()`
(on the whitespace characters occurring in this development). -/
def trimChars (s : List Char) : List Char :=
  ((s.dropWhile Char.isWhitespace).reverse.dropWhile Char.isWhitespace).reverse

/-- Worker for `removeAll`: the fuel argument (instantiated with the length
of the string, an upper bound on the number of scanning steps) makes the
recursion structural; each step either skips one matched occurrence or
keeps one character. -/
def removeAllFuel (pat : List Char) : Nat → List Char → List Char
  | _, [] => []
  | 0, s => s
  | fuel + 1, c :: cs =>
    if pat ≠ [] ∧ pat.isPrefixOf (c :: cs) then
      removeAllFuel pat fuel (List.drop pat.length (c :: cs))
    else c :: removeAllFuel pat fuel cs

/-- Remove every (left-to-right, non-overlapping) occurrence of `pat`,
modelling Python's `str.replace(pat, "")` for nonempty `pat`. -/
def removeAll (pat : List Char) (s : List Char) : List Char :=
  removeAllFuel pat s.length s

/-- Worker for `words`: the accumulator holds the current in-progress word,
reversed. -/
def wordsAux : List Char → List Char → List (List Char)
  | [], acc => if acc = [] then [] else [acc.reverse]
  | c :: cs, acc =>
    if c.isWhitespace then
      if acc = [] then wordsAux cs [] else acc.reverse :: wordsAux cs []
    else wordsAux cs (c :: acc)

/-- Python's `text.split()`: the maximal whitespace-free words of a string. -/
def words (l : List Char) : List (List Char) := wordsAux l []

/-- Python's `" ".join(ws)`. -/
def unwords : List (List Char) → List Char
  | [] => []
  | [w] => w
  | w :: ws => w ++ ' ' :: unwords ws

/-! ### `normalize_chinese_text` (`src/utils.py`, lines 54-76)

The source is called with `track_removed=True` from the parser; the
untracked variant is the first component. -/

/-- The local `normalized = ' '.join(text.split())` of the source. -/
def normalizedText (text : String) : String := ⟨unwords (words text.data)⟩

/-- Embedding of `normalize_chinese_text(text, track_removed=True)`:
`normalized = ' '.join(text.split())`, and the removed-token list is
`["extra_whitespace"]` exactly when the text changed (with
`track_removed=False` the source returns just the first component). -/
def normalize_chinese_text (text : String) : String × List String :=
  (normalizedText text, if text ≠ normalizedText text then ["extra_whitespace"] else [])

/-! ### Noise-word cleaning (`NameMatcher._clean_input_name`, lines 178-182) -/

/-- Sequentially delete each noise word (all occurrences) from `s`,
the loop body of `_clean_input_name`. -/
def cleanChars (s : List Char) : List Char :=
  NAME_NOISE_WORDS.foldl (fun acc w => removeAll w.data acc) s

/-- Embedding of `NameMatcher._clean_input_name`: strip every configured
noise word, then trim whitespace. -/
def clean_input_name (name : String) : String := ⟨trimChars (cleanChars name.data)⟩

/-! ### Phonetic keys

`NameMatcher._get_pinyin(name)` is `"".join(lazy_pinyin(name)).lower()`,
where `lazy_pinyin` comes from the external pypinyin library.  The
embedding is parametric in the transliteration `gp : String → String`;
`samplePinyin` below is a concrete instance for witnesses. -/

/-- Modelled from the spec: per-character toneless pinyin of the external
pypinyin `lazy_pinyin` ("toneless phonetic transliteration, lower-cased,
concatenated with no separators"), tabulated for the Chinese characters
used in this development; other characters map to themselves lowercased,
as `lazy_pinyin` passes non-Chinese segments through unchanged. -/
def charPinyin (c : Char) : String :=
  if c = '杨' then "yang" else
  if c = '洋' then "yang" else
  if c = '阳' then "yang" else
  if c = '张' then "zhang" else
  if c = '三' then "san" else
  if c = '山' then "shan" else
  if c = '李' then "li" else
  if c = '四' then "si" else
  if c = '王' then "wang" else
  if c = '小' then "xiao" else
  if c = '明' then "ming" else
  if c = '的' then "de" else
  if c = '同' then "tong" else
  if c = '学' then "xue" else
  ⟨[c.toLower]⟩

/-- Concrete instance of `NameMatcher._get_pinyin`:
`"".join(lazy_pinyin(name)).lower()` over the `charPinyin` table. -/
def samplePinyin (s : String) : String := String.join (s.data.map charPinyin)

/-! ### Character-level Levenshtein distance

The source calls the external `Levenshtein.distance`; this is the
standard edit distance, computed here row-by-row. -/

/-- One cell-by-cell pass of the Levenshtein dynamic program. -/
def levGo (x : Char) : Nat → Nat → List Char → List Nat → List Nat
  | _, _, [], _ => []
  | _, _, _ :: _, [] => []
  | left, diag, y :: ys, above :: prest =>
    let cur := min (min (above + 1) (left + 1)) (diag + if x = y then 0 else 1)
    cur :: levGo x cur above ys prest

/-- Advance the Levenshtein row for one further character of the first string. -/
def levStep (x : Char) (t : List Char) (prev : List Nat) : List Nat :=
  match prev with
  | [] => []
  | p0 :: prest => (p0 + 1) :: levGo x (p0 + 1) p0 t prest

/-- `Levenshtein.distance(s, t)`: character-level edit distance. -/
def levenshtein (s t : String) : Nat :=
  (s.data.foldl (fun row x => levStep x t.data row)
    (List.range (t.data.length + 1))).getLastD 0

/-! ### Stable sort by distance (`candidates.sort(key=lambda x: x[1])`) -/

/-- Stable insertion of a `(name, distance)` pair: it goes before the
first element whose distance is not smaller. -/
def insertByDist (c : String × Nat) : List (String × Nat) → List (String × Nat)
  | [] => [c]
  | d :: ds => if d.2 < c.2 then d :: insertByDist c ds else c :: d :: ds

/-- Stable ascending sort by the distance component, modelling Python's
stable `list.sort(key=lambda x: x[1])`. -/
def sortByDist : List (String × Nat) → List (String × Nat)
  | [] => []
  | c :: cs => insertByDist c (sortByDist cs)

/-! ### The roster-to-pinyin table (`NameMatcher.__init__`, line 35)

`self.name_to_pinyin = {name: self._get_pinyin(name) for name in student_names}`:
a Python dict keyed by the names in first-occurrence order. -/

/-- Key order of the dict comprehension: first occurrences, in load order. -/
def distinctNames (l : List String) : List String :=
  l.foldl (fun acc n => if n ∈ acc then acc else acc ++ [n]) []

/-- Embedding of `self.name_to_pinyin` as an ordered association list. -/
def name_to_pinyin (gp : String → String) (roster : List String) : List (String × String) :=
  (distinctNames roster).map (fun n => (n, gp n))

/-! ### Structured-logging events of `find_match`

Each `self.structured_logger.log_name_match_*` call (executed because
`ENABLE_STRUCTURED_LOGGING = True`) becomes one event. -/

/-- Decision-record events emitted by `NameMatcher.find_match`. -/
inductive MatchEvent where
  | exact (inputName matchedName : String)
  | pinyinExact (inputName inputPinyin matchedName matchedPinyin : String)
  | pinyinContains (inputName inputPinyin matchedName matchedPinyin : String)
  | fuzzy (inputName inputPinyin matchedName : String) (allCandidates : List (String × Nat))
  | ambiguous (inputName inputPinyin : String) (candidates : List (String × Nat))
  | fail (inputName inputPinyin : String) (topCandidates : List (String × Nat))
  deriving DecidableEq, Repr

/-! ### `NameMatcher.find_match` (lines 54-141) -/

/-- The tier-4 candidate list (lines 94-98): entries whose pinyin is
within Levenshtein distance 2 of the input pinyin, in dict order. -/
def tier4_candidates (gp : String → String) (roster : List String) (ip : String) :
    List (String × Nat) :=
  (name_to_pinyin gp roster).filterMap (fun p =>
    if levenshtein ip p.2 ≤ 2 then some (p.1, levenshtein ip p.2) else none)

/-- All `(name, distance)` pairs (lines 102-105), used for the
top-3 diagnostics when no candidate is within threshold. -/
def all_distances (gp : String → String) (roster : List String) (ip : String) :
    List (String × Nat) :=
  (name_to_pinyin gp roster).map (fun p => (p.1, levenshtein ip p.2))

/-- The fuzzy tier (lines 100-141): fail with the three globally closest
names attached when no candidate is within threshold; report ambiguity
when the two best sorted candidates are at the same distance; otherwise
resolve to the sorted head. -/
def fuzzy_stage (input0 ip : String) (cands alld : List (String × Nat)) :
    (Option String × Option String) × List MatchEvent :=
  if cands = [] then
    ((none, none), [MatchEvent.fail input0 ip ((sortByDist alld).take 3)])
  else
    match sortByDist cands with
    | [] => ((none, none), [])
    | [c] => ((some c.1, some "pinyin_fuzzy"), [MatchEvent.fuzzy input0 ip c.1 [c]])
    | c1 :: c2 :: rest =>
      if c1.2 = c2.2 then
        ((none, some "ambiguous"),
          [MatchEvent.ambiguous input0 ip ((c1 :: c2 :: rest).filter (fun x => x.2 == c1.2))])
      else
        ((some c1.1, some "pinyin_fuzzy"),
          [MatchEvent.fuzzy input0 ip c1.1 (c1 :: c2 :: rest)])

/-- Embedding of `NameMatcher.find_match`: clean the input, then try
exact roster membership, exact pinyin, symmetric pinyin prefix
("contains"), and finally the fuzzy tier; alongside the returned
`(matched_name, match_type)` pair it records the emitted decision event. -/
def find_match (gp : String → String) (roster : List String) (input0 : String) :
    (Option String × Option String) × List MatchEvent :=
  if clean_input_name input0 ∈ roster then
    ((some (clean_input_name input0), some "exact"),
      [MatchEvent.exact input0 (clean_input_name input0)])
  else
    match (name_to_pinyin gp roster).find?
        (fun p => gp (clean_input_name input0) == p.2) with
    | some p =>
      ((some p.1, some "pinyin_exact"),
        [MatchEvent.pinyinExact input0 (gp (clean_input_name input0)) p.1 p.2])
    | none =>
      match (name_to_pinyin gp roster).find?
          (fun p => strStartsWith (gp (clean_input_name input0)) p.2
            || strStartsWith p.2 (gp (clean_input_name input0))) with
      | some p =>
        ((some p.1, some "pinyin_contains"),
          [MatchEvent.pinyinContains input0 (gp (clean_input_name input0)) p.1 p.2])
      | none =>
        fuzzy_stage input0 (gp (clean_input_name input0))
          (tier4_candidates gp roster (gp (clean_input_name input0)))
          (all_distances gp roster (gp (clean_input_name input0)))

/-! ### Numeral decoding (`safe_int_conversion`, `src/utils.py` lines 79-98)

`int(value)` is modelled by `parseInt10`; the external `cn2an.cn2an(value,
"smart")` conversion (with its `except Exception` guard) is a parameter
`cn : String → Option Int` of the embedding. -/

/-- Digit run to number, base 10. -/
def digitsToNat (ds : List Char) : Nat :=
  ds.foldl (fun n c => n * 10 + (c.toNat - '0'.toNat)) 0

/-- Python's `int(value)` on the strings arising here: surrounding
whitespace, an optional sign, then a nonempty run of decimal digits. -/
def parseInt10 (s : String) : Option Int :=
  match trimChars s.data with
  | '-' :: ds =>
    if ds ≠ [] ∧ ds.all Char.isDigit then some (-(digitsToNat ds : Int)) else none
  | '+' :: ds =>
    if ds ≠ [] ∧ ds.all Char.isDigit then some (digitsToNat ds) else none
  | ds =>
    if ds ≠ [] ∧ ds.all Char.isDigit then some (digitsToNat ds) else none

/-- Embedding of `safe_int_conversion`: direct base-10 parse first; on
failure fall back to the Chinese-numeral converter `cn`; `none` when
neither succeeds. -/
def safe_int_conversion (cn : String → Option Int) (value : String) : Option Int :=
  match parseInt10 value with
  | some n => some n
  | none => cn value

/-! ### The keyword/number scanners (`SpeechParser.__init__`, lines 33-43)

Each compiled regex is
`(?:(kw1|kw2)\s*(\d+|[Chinese numerals]+)|(\d+|[Chinese numerals]+)\s*(?:kw1|kw2))`,
searched for the leftmost match; the number is `group(2) or group(3)`. -/

/-- The character class `[零一二三四五六七八九十百千万]`. -/
def isChineseNumChar (c : Char) : Bool :=
  c ∈ ['零', '一', '二', '三', '四', '五', '六', '七', '八', '九', '十', '百', '千', '万']

/-- The regex piece `(\d+|[Chinese numerals]+)`: a maximal digit run,
or else a maximal Chinese-numeral run, with the rest of the text. -/
def matchNumber (cs : List Char) : Option (List Char × List Char) :=
  let ds := cs.takeWhile Char.isDigit
  if ds ≠ [] then some (ds, cs.dropWhile Char.isDigit)
  else
    let zs := cs.takeWhile isChineseNumChar
    if zs ≠ [] then some (zs, cs.dropWhile isChineseNumChar) else none

/-- The first regex alternative `(kw)\s*(number)` anchored at `cs`,
trying the keywords in listed order with backtracking (a later keyword
is tried when the earlier one matches but no number follows). -/
def matchAltA (kws : List String) (cs : List Char) : Option (List Char) :=
  kws.findSome? fun kw =>
    if kw.data.isPrefixOf cs then
      (matchNumber ((cs.drop kw.data.length).dropWhile Char.isWhitespace)).map Prod.fst
    else none

/-- The second regex alternative `(number)\s*(?:kw)` anchored at `cs`. -/
def matchAltB (kws : List String) (cs : List Char) : Option (List Char) :=
  match matchNumber cs with
  | none => none
  | some (num, rest) =>
    if kws.any (fun kw => kw.data.isPrefixOf (rest.dropWhile Char.isWhitespace)) then
      some num
    else none

/-- `regex.search`: the leftmost position at which either alternative
matches wins, the first alternative preferred; returns the number token. -/
def searchCount (kws : List String) : List Char → Option (List Char)
  | [] => none
  | c :: cs =>
    match matchAltA kws (c :: cs) with
    | some num => some num
    | none =>
      match matchAltB kws (c :: cs) with
      | some num => some num
      | none => searchCount kws cs

/-- Embedding of `SpeechParser._extract_count`: search the text with the
scanner for `kws` and decode the matched number token. -/
def extract_count (cn : String → Option Int) (kws : List String) (text : String) :
    Option Int :=
  match searchCount kws text.data with
  | none => none
  | some num => safe_int_conversion cn ⟨num⟩

/-! ### `SpeechParser.parse` (lines 54-113) -/

/-- Parsed grade entry (`GradeEntry` dataclass in `src/parser.py`). -/
structure GradeEntry where
  name : String
  correct : Int
  wrong : Int
  deriving DecidableEq, Repr

/-- Decision-record events emitted by `SpeechParser.parse`. -/
inductive ParseEvent where
  | textNormalize (rawInput normalizedInput : String) (removedTokens : List String)
  | parseFail (rawInput reason : String) (missingFields : List String)
  | parseSuccess (rawInput name : String) (correct wrong : Int)
  deriving DecidableEq, Repr

/-- Leftmost-match test for `re.split(r"\d|对|正确|错|错误", text, maxsplit=1)`:
does the split pattern match starting at this position? -/
def splitTokAt (cs : List Char) : Bool :=
  match cs with
  | [] => false
  | c :: _ =>
    c.isDigit || (["对", "正确", "错", "错误"].any (fun k => k.data.isPrefixOf cs))

/-- Segment `[0]` of the split: the text before the first digit or
correct/wrong keyword (the whole text when none occurs). -/
def splitFirstSeg : List Char → List Char
  | [] => []
  | c :: cs => if splitTokAt (c :: cs) then [] else c :: splitFirstSeg cs

/-- Embedding of `SpeechParser.parse`: normalize, extract both counts
(each may be missing), fail when both are missing, derive the name
candidate as the trimmed segment before the first digit/keyword, fail
when it is empty, and otherwise build the `GradeEntry` with missing
counts defaulting to 0 (`correct or 0`, `wrong or 0`). -/
def parse (cn : String → Option Int) (text0 : String) :
    Option GradeEntry × List ParseEvent :=
  let normalized := (normalize_chinese_text text0).1
  let removed := (normalize_chinese_text text0).2
  let evNorm := ParseEvent.textNormalize text0 normalized removed
  let correct := extract_count cn CORRECT_KEYWORDS normalized
  let wrong := extract_count cn WRONG_KEYWORDS normalized
  if correct = none ∧ wrong = none then
    (none, [evNorm, ParseEvent.parseFail text0 "missing_both_counts" ["correct", "wrong"]])
  else
    let nameCandidate : String := ⟨trimChars (splitFirstSeg normalized.data)⟩
    if nameCandidate = "" then
      (none, [evNorm, ParseEvent.parseFail text0 "no_name_extracted" ["name"]])
    else
      (some ⟨nameCandidate, correct.getD 0, wrong.getD 0⟩,
        [evNorm, ParseEvent.parseSuccess text0 nameCandidate (correct.getD 0) (wrong.getD 0)])

/-! ### Properties of the stable sort and the pinyin table -/

theorem insertByDist_perm (c : String × Nat) (l : List (String × Nat)) :
    List.Perm (insertByDist c l) (c :: l) := by
  induction l with
  | nil => simp [insertByDist]
  | cons d ds ih =>
    by_cases h : d.2 < c.2
    · simp only [insertByDist, if_pos h]
      exact (ih.cons d).trans (List.Perm.swap c d ds)
    · simp [insertByDist, if_neg h]

theorem sortByDist_perm (l : List (String × Nat)) : List.Perm (sortByDist l) l := by
  induction l with
  | nil => simp [sortByDist]
  | cons c cs ih => exact (insertByDist_perm c (sortByDist cs)).trans (ih.cons c)

theorem insertByDist_pairwise (c : String × Nat) (l : List (String × Nat))
    (h : l.Pairwise (fun a b => a.2 ≤ b.2)) :
    (insertByDist c l).Pairwise (fun a b => a.2 ≤ b.2) := by
  induction l with
  | nil => simp [insertByDist]
  | cons d ds ih =>
    rw [List.pairwise_cons] at h
    obtain ⟨hd, hds⟩ := h
    by_cases hlt : d.2 < c.2
    · simp only [insertByDist, if_pos hlt]
      rw [List.pairwise_cons]
      refine ⟨?_, ih hds⟩
      intro b hb
      have hb2 := (insertByDist_perm c ds).mem_iff.mp hb
      rcases List.mem_cons.mp hb2 with rfl | hbds
      · exact Nat.le_of_lt hlt
      · exact hd b hbds
    · simp only [insertByDist, if_neg hlt]
      rw [List.pairwise_cons]
      refine ⟨?_, List.pairwise_cons.mpr ⟨hd, hds⟩⟩
      intro b hb
      rcases List.mem_cons.mp hb with rfl | hbds
      · omega
      · have := hd b hbds
        omega

theorem sortByDist_pairwise (l : List (String × Nat)) :
    (sortByDist l).Pairwise (fun a b => a.2 ≤ b.2) := by
  induction l with
  | nil => simp [sortByDist]
  | cons c cs ih => exact insertByDist_pairwise c _ ih

theorem filter_insertByDist (c : String × Nat) (l : List (String × Nat)) (d : Nat) :
    (insertByDist c l).filter (fun x => x.2 == d) =
      if c.2 = d then c :: l.filter (fun x => x.2 == d)
      else l.filter (fun x => x.2 == d) := by
  induction l with
  | nil =>
    by_cases h : c.2 = d <;> simp [insertByDist, List.filter_cons, h]
  | cons e es ih =>
    by_cases hlt : e.2 < c.2
    · simp only [insertByDist, if_pos hlt]
      by_cases hc : c.2 = d
      · have he : ¬(e.2 = d) := by omega
        simp [List.filter_cons, he, hc, ih]
      · simp only [if_neg hc] at ih
        simp [List.filter_cons, hc, ih]
    · simp only [insertByDist, if_neg hlt]
      by_cases hc : c.2 = d <;> simp [List.filter_cons, hc]

theorem filter_sortByDist (l : List (String × Nat)) (d : Nat) :
    (sortByDist l).filter (fun x => x.2 == d) = l.filter (fun x => x.2 == d) := by
  induction l with
  | nil => simp [sortByDist]
  | cons c cs ih =>
    simp only [sortByDist]
    rw [filter_insertByDist]
    by_cases hc : c.2 = d <;> simp [List.filter_cons, hc, ih]

theorem head_eq_min {q : String × Nat} {t : List (String × Nat)} (m : Nat)
    (hsort : (q :: t).Pairwise (fun a b => a.2 ≤ b.2))
    (hmin : ∀ p ∈ q :: t, m ≤ p.2)
    (hex : ∃ p ∈ q :: t, p.2 = m) : q.2 = m := by
  obtain ⟨p, hp, hpm⟩ := hex
  rcases List.mem_cons.mp hp with rfl | hpt
  · exact hpm
  · have h1 := (List.pairwise_cons.mp hsort).1 p hpt
    have h2 := hmin q (List.mem_cons_self q t)
    omega

theorem mem_distinctNames_aux (a : String) (l : List String) :
    ∀ acc, (a ∈ l.foldl (fun acc n => if n ∈ acc then acc else acc ++ [n]) acc ↔
      a ∈ acc ∨ a ∈ l) := by
  induction l with
  | nil => simp
  | cons n ns ih =>
    intro acc
    simp only [List.foldl_cons]
    by_cases hn : n ∈ acc
    · rw [if_pos hn, ih]
      constructor
      · rintro (h | h)
        · exact Or.inl h
        · exact Or.inr (List.mem_cons_of_mem n h)
      · rintro (h | h)
        · exact Or.inl h
        · rcases List.mem_cons.mp h with rfl | h2
          · exact Or.inl hn
          · exact Or.inr h2
    · rw [if_neg hn, ih]
      simp only [List.mem_append, List.mem_singleton, List.mem_cons]
      tauto

theorem mem_distinctNames (a : String) (l : List String) :
    a ∈ distinctNames l ↔ a ∈ l := by
  have := mem_distinctNames_aux a l []
  simpa [distinctNames] using this

theorem mem_name_to_pinyin (gp : String → String) (roster : List String)
    (p : String × String) :
    p ∈ name_to_pinyin gp roster ↔ p.1 ∈ roster ∧ p.2 = gp p.1 := by
  simp only [name_to_pinyin, List.mem_map]
  constructor
  · rintro ⟨n, hn, rfl⟩
    exact ⟨(mem_distinctNames n roster).mp hn, rfl⟩
  · rintro ⟨h1, h2⟩
    refine ⟨p.1, (mem_distinctNames p.1 roster).mpr h1, ?_⟩
    obtain ⟨a, b⟩ := p
    simp only at h2
    simp [h2]

/-! ### Properties of `words` and `unwords` -/

theorem takeWhile_all {α : Type} (p : α → Bool) (l : List α)
    (h : ∀ a ∈ l, p a = true) : l.takeWhile p = l := by
  induction l with
  | nil => simp
  | cons c cs ih =>
    have hc := h c (List.mem_cons_self c cs)
    have ih2 := ih (fun a ha => h a (List.mem_cons_of_mem c ha))
    simp [List.takeWhile_cons, hc, ih2]

theorem dropWhile_all {α : Type} (p : α → Bool) (l : List α)
    (h : ∀ a ∈ l, p a = true) : l.dropWhile p = [] := by
  induction l with
  | nil => simp
  | cons c cs ih =>
    have hc := h c (List.mem_cons_self c cs)
    have ih2 := ih (fun a ha => h a (List.mem_cons_of_mem c ha))
    simp [List.dropWhile_cons, hc, ih2]

theorem takeWhile_append_all {α : Type} (p : α → Bool) (l r : List α)
    (h : ∀ a ∈ l, p a = true) : (l ++ r).takeWhile p = l ++ r.takeWhile p := by
  induction l with
  | nil => simp
  | cons c cs ih =>
    have hc := h c (List.mem_cons_self c cs)
    have ih2 := ih (fun a ha => h a (List.mem_cons_of_mem c ha))
    simp [List.takeWhile_cons, hc, ih2]

theorem dropWhile_append_all {α : Type} (p : α → Bool) (l r : List α)
    (h : ∀ a ∈ l, p a = true) : (l ++ r).dropWhile p = r.dropWhile p := by
  induction l with
  | nil => simp
  | cons c cs ih =>
    have hc := h c (List.mem_cons_self c cs)
    have ih2 := ih (fun a ha => h a (List.mem_cons_of_mem c ha))
    simp [List.dropWhile_cons, hc, ih2]

theorem wordsAux_wellformed (cs : List Char) :
    ∀ acc, (∀ ch ∈ acc, ch.isWhitespace = false) →
      ∀ w ∈ wordsAux cs acc, w ≠ [] ∧ ∀ ch ∈ w, ch.isWhitespace = false := by
  induction cs with
  | nil =>
    intro acc hacc w hw
    by_cases hacc0 : acc = []
    · simp [wordsAux, hacc0] at hw
    · simp only [wordsAux, if_neg hacc0, List.mem_singleton] at hw
      subst hw
      refine ⟨by simpa using hacc0, ?_⟩
      intro ch hch
      exact hacc ch (List.mem_reverse.mp hch)
  | cons c cs ih =>
    intro acc hacc w hw
    by_cases hc : c.isWhitespace = true
    · by_cases hacc0 : acc = []
      · simp only [wordsAux, hc, if_pos, hacc0, if_true] at hw
        exact ih [] (by simp) w (by simpa using hw)
      · simp only [wordsAux, hc, if_true, if_neg hacc0] at hw
        rcases List.mem_cons.mp hw with rfl | hwtail
        · refine ⟨by simpa using hacc0, ?_⟩
          intro ch hch
          exact hacc ch (List.mem_reverse.mp hch)
        · exact ih [] (by simp) w hwtail
    · simp only [wordsAux, hc, if_false, Bool.false_eq_true] at hw
      refine ih (c :: acc) ?_ w ?_
      · intro ch hch
        rcases List.mem_cons.mp hch with rfl | hcha
        · simpa using hc
        · exact hacc ch hcha
      · simpa using hw

theorem words_wellformed (cs : List Char) :
    ∀ w ∈ words cs, w ≠ [] ∧ ∀ ch ∈ w, ch.isWhitespace = false :=
  wordsAux_wellformed cs [] (by simp)

theorem wordsAux_append_word (w : List Char) (hw : ∀ ch ∈ w, ch.isWhitespace = false) :
    ∀ s acc, wordsAux (w ++ s) acc = wordsAux s (w.reverse ++ acc) := by
  induction w with
  | nil => simp
  | cons c cs ih =>
    intro s acc
    have hc : c.isWhitespace = false := hw c (List.mem_cons_self c cs)
    have ihw : ∀ ch ∈ cs, ch.isWhitespace = false := fun ch hch =>
      hw ch (List.mem_cons_of_mem c hch)
    show wordsAux (c :: (cs ++ s)) acc = _
    simp only [wordsAux, hc, Bool.false_eq_true, if_false]
    rw [ih ihw s (c :: acc)]
    simp

theorem words_unwords (ws : List (List Char))
    (h : ∀ w ∈ ws, w ≠ [] ∧ ∀ ch ∈ w, ch.isWhitespace = false) :
    words (unwords ws) = ws := by
  induction ws with
  | nil => simp [unwords, words, wordsAux]
  | cons w tail ih =>
    obtain ⟨hwne, hwchars⟩ := h w (List.mem_cons_self w tail)
    have hwrev : w.reverse ≠ [] := by simpa using hwne
    cases tail with
    | nil =>
      show words (unwords [w]) = [w]
      have huw : unwords [w] = w ++ [] := by simp [unwords]
      rw [words, huw, wordsAux_append_word w hwchars]
      simp only [wordsAux, List.append_nil, if_neg hwrev]
      simp
    | cons w2 tail2 =>
      show words (w ++ ' ' :: unwords (w2 :: tail2)) = w :: w2 :: tail2
      rw [words, wordsAux_append_word w hwchars]
      have hsp : (' '.isWhitespace : Bool) = true := by decide
      simp only [wordsAux, hsp, if_true, List.append_nil, if_neg hwrev]
      rw [List.reverse_reverse]
      have hihr := ih (fun v hv => h v (List.mem_cons_of_mem w hv))
      rw [words] at hihr
      rw [hihr]

theorem normalizedText_idem (s : String) :
    normalizedText (normalizedText s) = normalizedText s := by
  show (⟨unwords (words (normalizedText s).data)⟩ : String) = normalizedText s
  have : (normalizedText s).data = unwords (words s.data) := rfl
  rw [this, words_unwords _ (words_wellformed s.data)]
  rfl

/-! ### Reduction of `find_match` to the fuzzy tier, and its three outcomes -/

theorem find_match_tiers_fail (gp : String → String) (roster : List String) (c : String)
    (h1 : clean_input_name c ∉ roster)
    (h2 : ∀ p ∈ name_to_pinyin gp roster, gp (clean_input_name c) ≠ p.2)
    (h3 : ∀ p ∈ name_to_pinyin gp roster,
      (strStartsWith (gp (clean_input_name c)) p.2
        || strStartsWith p.2 (gp (clean_input_name c))) = false) :
    find_match gp roster c = fuzzy_stage c (gp (clean_input_name c))
      (tier4_candidates gp roster (gp (clean_input_name c)))
      (all_distances gp roster (gp (clean_input_name c))) := by
  have hfind2 : (name_to_pinyin gp roster).find?
      (fun p => gp (clean_input_name c) == p.2) = none := by
    rw [List.find?_eq_none]
    intro p hp
    simp only [beq_iff_eq]
    exact h2 p hp
  have hfind3 : (name_to_pinyin gp roster).find?
      (fun p => strStartsWith (gp (clean_input_name c)) p.2
        || strStartsWith p.2 (gp (clean_input_name c))) = none := by
    rw [List.find?_eq_none]
    intro p hp
    simp [h3 p hp]
  simp only [find_match, if_neg h1, hfind2, hfind3]

theorem find?_append_first {α : Type} (pred : α → Bool) (l1 l2 : List α) (p : α)
    (hl1 : ∀ q ∈ l1, pred q = false) (hp : pred p = true) :
    (l1 ++ p :: l2).find? pred = some p := by
  induction l1 with
  | nil =>
    simp only [List.nil_append]
    exact List.find?_cons_of_pos _ hp
  | cons q l1t ih =>
    simp only [List.cons_append]
    rw [List.find?_cons_of_neg]
    · exact ih (fun r hr => hl1 r (List.mem_cons_of_mem q hr))
    · simp [hl1 q (List.mem_cons_self q l1t)]

theorem fuzzy_stage_notfound (i ip : String) (alld : List (String × Nat)) :
    fuzzy_stage i ip [] alld =
      ((none, none), [MatchEvent.fail i ip ((sortByDist alld).take 3)]) := by
  simp [fuzzy_stage]

theorem fuzzy_stage_single (i ip : String) (cands alld : List (String × Nat))
    (q : String × Nat) (hne : cands ≠ []) (hs : sortByDist cands = [q]) :
    fuzzy_stage i ip cands alld =
      ((some q.1, some "pinyin_fuzzy"), [MatchEvent.fuzzy i ip q.1 [q]]) := by
  simp only [fuzzy_stage, if_neg hne, hs]

theorem fuzzy_stage_cons_cons (i ip : String) (cands alld : List (String × Nat))
    (q1 q2 : String × Nat) (t2 : List (String × Nat))
    (hne : cands ≠ []) (hs : sortByDist cands = q1 :: q2 :: t2) :
    fuzzy_stage i ip cands alld =
      if q1.2 = q2.2 then
        ((none, some "ambiguous"),
          [MatchEvent.ambiguous i ip ((q1 :: q2 :: t2).filter (fun x => x.2 == q1.2))])
      else ((some q1.1, some "pinyin_fuzzy"),
        [MatchEvent.fuzzy i ip q1.1 (q1 :: q2 :: t2)]) := by
  simp only [fuzzy_stage, if_neg hne, hs]

theorem fuzzy_stage_ambiguous (i ip : String) (cands alld : List (String × Nat)) (m : Nat)
    (hmin : ∀ p ∈ cands, m ≤ p.2)
    (hlen : 2 ≤ (cands.filter (fun x => x.2 == m)).length) :
    fuzzy_stage i ip cands alld = ((none, some "ambiguous"),
      [MatchEvent.ambiguous i ip (cands.filter (fun x => x.2 == m))]) := by
  have hfil := filter_sortByDist cands m
  have hperm := sortByDist_perm cands
  have hpair := sortByDist_pairwise cands
  have hne : cands ≠ [] := by
    intro h0
    rw [h0] at hlen
    simp at hlen
  have hmins : ∀ p ∈ sortByDist cands, m ≤ p.2 := fun p hp =>
    hmin p (hperm.mem_iff.mp hp)
  have hexs : ∃ p ∈ sortByDist cands, p.2 = m := by
    have hFne : (sortByDist cands).filter (fun x => x.2 == m) ≠ [] := by
      rw [hfil]
      intro h0
      rw [h0] at hlen
      simp at hlen
    obtain ⟨p, hp⟩ := List.exists_mem_of_ne_nil _ hFne
    have hp2 := List.mem_filter.mp hp
    exact ⟨p, hp2.1, by simpa using hp2.2⟩
  rcases hs : sortByDist cands with _ | ⟨q1, t⟩
  · rw [hs] at hperm
    exact absurd hperm.symm.eq_nil hne
  · rw [hs] at hpair hmins hexs hfil
    have hq1 : q1.2 = m := head_eq_min m hpair hmins hexs
    cases t with
    | nil =>
      exfalso
      rw [← hfil] at hlen
      simp [List.filter_cons, hq1] at hlen
    | cons q2 t2 =>
      have hf1 : (q1 :: q2 :: t2).filter (fun x => x.2 == m) =
          q1 :: (q2 :: t2).filter (fun x => x.2 == m) := by
        simp [List.filter_cons, hq1]
      have hq2 : q2.2 = m := by
        rw [← hfil, hf1] at hlen
        have hFne : (q2 :: t2).filter (fun x => x.2 == m) ≠ [] := by
          intro h0
          rw [h0] at hlen
          simp at hlen
        obtain ⟨r, hr⟩ := List.exists_mem_of_ne_nil _ hFne
        have hr2 := List.mem_filter.mp hr
        have hpair2 : (q2 :: t2).Pairwise (fun a b => a.2 ≤ b.2) :=
          (List.pairwise_cons.mp hpair).2
        have hmins2 : ∀ p ∈ q2 :: t2, m ≤ p.2 := fun p hp =>
          hmins p (List.mem_cons_of_mem q1 hp)
        exact head_eq_min m hpair2 hmins2 ⟨r, hr2.1, by simpa using hr2.2⟩
      rw [fuzzy_stage_cons_cons i ip cands alld q1 q2 t2 hne hs,
        if_pos (hq1.trans hq2.symm), hq1, hfil]

theorem fuzzy_stage_unique (i ip : String) (cands alld : List (String × Nat)) (m : Nat)
    (hmin : ∀ p ∈ cands, m ≤ p.2) (q : String × Nat)
    (hq : cands.filter (fun x => x.2 == m) = [q]) :
    fuzzy_stage i ip cands alld =
      ((some q.1, some "pinyin_fuzzy"), [MatchEvent.fuzzy i ip q.1 (sortByDist cands)]) := by
  have hfil := filter_sortByDist cands m
  have hperm := sortByDist_perm cands
  have hpair := sortByDist_pairwise cands
  have hqmem : q ∈ cands ∧ q.2 = m := by
    have : q ∈ cands.filter (fun x => x.2 == m) := by
      rw [hq]
      exact List.mem_cons_self q []
    have h2 := List.mem_filter.mp this
    exact ⟨h2.1, by simpa using h2.2⟩
  have hne : cands ≠ [] := List.ne_nil_of_mem hqmem.1
  have hmins : ∀ p ∈ sortByDist cands, m ≤ p.2 := fun p hp =>
    hmin p (hperm.mem_iff.mp hp)
  have hexs : ∃ p ∈ sortByDist cands, p.2 = m :=
    ⟨q, hperm.mem_iff.mpr hqmem.1, hqmem.2⟩
  rcases hs : sortByDist cands with _ | ⟨q1, t⟩
  · rw [hs] at hperm
    exact absurd hperm.symm.eq_nil hne
  · rw [hs] at hpair hmins hexs hfil
    have hq1 : q1.2 = m := head_eq_min m hpair hmins hexs
    have hfcons : (q1 :: t).filter (fun x => x.2 == m) =
        q1 :: t.filter (fun x => x.2 == m) := by
      simp [List.filter_cons, hq1]
    have hsplit : q1 = q ∧ t.filter (fun x => x.2 == m) = [] := by
      have h0 := hfil.trans hq
      rw [hfcons] at h0
      exact ⟨(List.cons.injEq _ _ _ _).mp h0 |>.1, (List.cons.injEq _ _ _ _).mp h0 |>.2⟩
    cases t with
    | nil =>
      rw [fuzzy_stage_single i ip cands alld q1 hne hs, hsplit.1]
    | cons q2 t2 =>
      have hq2ne : ¬(q2.2 = m) := by
        intro h0
        have hmem2 : q2 ∈ (q2 :: t2).filter (fun x => x.2 == m) := by
          rw [List.mem_filter]
          exact ⟨List.mem_cons_self q2 t2, by simpa using h0⟩
        rw [hsplit.2] at hmem2
        simp at hmem2
      rw [fuzzy_stage_cons_cons i ip cands alld q1 q2 t2 hne hs,
        if_neg (by rw [hq1]; exact fun h0 => hq2ne h0.symm), hsplit.1]

/-! ## The claims -/

/-- Claim C1, counterexample: with the roster `["杨洋", "阳阳"]` — two distinct
canonical names sharing the phonetic key "yangyang" — and the candidate
"yangyang" (equal key, no verbatim match), `find_match` returns
`Resolved{"杨洋", pinyin_exact}`, silently picking the first entry instead of
surfacing an ambiguity. -/
theorem C1_counterexample :
    samplePinyin "杨洋" = samplePinyin "阳阳" ∧ "杨洋" ≠ ("阳阳" : String) ∧
    clean_input_name "yangyang" ∉ ["杨洋", "阳阳"] ∧
    samplePinyin (clean_input_name "yangyang") = samplePinyin "杨洋" ∧
    (find_match samplePinyin ["杨洋", "阳阳"] "yangyang").1 =
      (some "杨洋", some "pinyin_exact") ∧
    (find_match samplePinyin ["杨洋", "阳阳"] "yangyang").1.2 ≠ some "ambiguous" := by
  refine ⟨by decide, by decide, by decide, by decide, by decide, by decide⟩

/-- Claim C1 (corrected): when two distinct roster names share a phonetic key
and the candidate's key equals it without a verbatim match, `find_match`
resolves to a single name carrying that key (the first match in dict order)
with kind `pinyin_exact`; it does not report an ambiguity. -/
theorem C1_pinyin_exact_first (gp : String → String) (roster : List String)
    (c a b : String) (ha : a ∈ roster) (hb : b ∈ roster) (hab : a ≠ b)
    (hkey : gp a = gp b) (hclean : clean_input_name c ∉ roster)
    (hc : gp (clean_input_name c) = gp a) :
    ∃ n ∈ roster, gp n = gp a ∧
      (find_match gp roster c).1 = (some n, some "pinyin_exact") := by
  have hsome : ((name_to_pinyin gp roster).find?
      (fun p => gp (clean_input_name c) == p.2)).isSome := by
    rw [List.find?_isSome]
    exact ⟨(a, gp a), (mem_name_to_pinyin gp roster (a, gp a)).mpr ⟨ha, rfl⟩,
      by simp [hc]⟩
  obtain ⟨p, hp⟩ := Option.isSome_iff_exists.mp hsome
  have hmem := List.mem_of_find?_eq_some hp
  have hpred := List.find?_some hp
  have hp2 := (mem_name_to_pinyin gp roster p).mp hmem
  refine ⟨p.1, hp2.1, ?_, ?_⟩
  · have hkeyp : gp (clean_input_name c) = p.2 := by simpa using hpred
    rw [← hp2.2, ← hkeyp]
    exact hc
  · simp only [find_match, if_neg hclean, hp]

/-- Witness for C1: the corrected statement instantiated on the concrete
duplicate-key roster of the counterexample. -/
theorem C1_pinyin_exact_first_witness :
    ∃ n ∈ ["杨洋", "阳阳"], samplePinyin n = samplePinyin "杨洋" ∧
      (find_match samplePinyin ["杨洋", "阳阳"] "yangyang").1 =
        (some n, some "pinyin_exact") :=
  C1_pinyin_exact_first samplePinyin ["杨洋", "阳阳"] "yangyang" "杨洋" "阳阳"
    (by decide) (by decide) (by decide) (by decide) (by decide) (by decide)

/-- Claim C2, counterexample: the canonical name "的" is itself a configured
noise word; resolving it against the roster `["的"]` strips it to the empty
string, so the exact tier misses and the result is
`Resolved{"的", pinyin_contains}`, not `Resolved{"的", exact}`. -/
theorem C2_counterexample :
    "的" ∈ ["的"] ∧
    (find_match samplePinyin ["的"] "的").1 = (some "的", some "pinyin_contains") ∧
    (find_match samplePinyin ["的"] "的").1 ≠ (some "的", some "exact") := by
  refine ⟨by decide, by decide, by decide⟩

/-- Claim C2 (corrected): for every roster entry whose canonical name is left
unchanged by noise-word stripping and trimming, resolving that name yields
`Resolved{name, exact}`; names containing configured noise words are altered
by the preprocessing and may miss the exact tier. -/
theorem C2_exact_tier (gp : String → String) (roster : List String) (name : String)
    (h1 : name ∈ roster) (h2 : clean_input_name name = name) :
    (find_match gp roster name).1 = (some name, some "exact") := by
  simp only [find_match, h2, if_pos h1]

/-- Witness for C2: the corrected statement at the noise-free roster name
"杨洋". -/
theorem C2_exact_tier_witness :
    (find_match samplePinyin ["杨洋", "王小明"] "杨洋").1 = (some "杨洋", some "exact") :=
  C2_exact_tier samplePinyin ["杨洋", "王小明"] "杨洋" (by decide) (by decide)

/-- Claim C3 (confirmed): when tiers 1-3 all fail, the fuzzy tier keeps the
entries within Levenshtein distance 2 of the candidate's phonetic key; with no
qualifying entry the result is NotFound (`(none, none)`) and the decision
record carries the 3 globally-closest candidates; when at least two kept
entries attain the minimum distance `m` the result is Ambiguous
(`(none, some "ambiguous")`) over exactly the minimum-distance entries
(sorted by distance then dict order — their original relative order, by
stability); and when a unique entry attains the minimum the result is
`Resolved{q, pinyin_fuzzy}`. -/
theorem C3_fuzzy_tier (gp : String → String) (roster : List String) (c : String)
    (h1 : clean_input_name c ∉ roster)
    (h2 : ∀ p ∈ name_to_pinyin gp roster, gp (clean_input_name c) ≠ p.2)
    (h3 : ∀ p ∈ name_to_pinyin gp roster,
      (strStartsWith (gp (clean_input_name c)) p.2
        || strStartsWith p.2 (gp (clean_input_name c))) = false) :
    (tier4_candidates gp roster (gp (clean_input_name c)) = [] →
      find_match gp roster c = ((none, none),
        [MatchEvent.fail c (gp (clean_input_name c))
          ((sortByDist (all_distances gp roster (gp (clean_input_name c)))).take 3)])) ∧
    (∀ m : Nat,
      (∀ p ∈ tier4_candidates gp roster (gp (clean_input_name c)), m ≤ p.2) →
      ((2 ≤ ((tier4_candidates gp roster (gp (clean_input_name c))).filter
          (fun x => x.2 == m)).length →
        find_match gp roster c = ((none, some "ambiguous"),
          [MatchEvent.ambiguous c (gp (clean_input_name c))
            ((tier4_candidates gp roster (gp (clean_input_name c))).filter
              (fun x => x.2 == m))])) ∧
      (∀ q : String × Nat,
        (tier4_candidates gp roster (gp (clean_input_name c))).filter
          (fun x => x.2 == m) = [q] →
        find_match gp roster c = ((some q.1, some "pinyin_fuzzy"),
          [MatchEvent.fuzzy c (gp (clean_input_name c)) q.1
            (sortByDist (tier4_candidates gp roster (gp (clean_input_name c))))])))) := by
  have hred := find_match_tiers_fail gp roster c h1 h2 h3
  refine ⟨?_, ?_⟩
  · intro hempty
    rw [hred, hempty, fuzzy_stage_notfound]
  · intro m hmin
    refine ⟨?_, ?_⟩
    · intro hlen
      rw [hred, fuzzy_stage_ambiguous _ _ _ _ m hmin hlen]
    · intro q hq
      rw [hred, fuzzy_stage_unique _ _ _ _ m hmin q hq]

/-- Witness for C3: one instance per branch — a two-way tie at distance 1
(with the distance-3-plus entry excluded), an empty candidate set reporting
the closest names, and a unique strict minimum. -/
theorem C3_fuzzy_tier_witness :
    (find_match samplePinyin ["张三", "张山", "李四"] "zhangshn" =
      ((none, some "ambiguous"),
        [MatchEvent.ambiguous "zhangshn" "zhangshn" [("张三", 1), ("张山", 1)]])) ∧
    (find_match samplePinyin ["王小明"] "buxunzai" =
      ((none, none), [MatchEvent.fail "buxunzai" "buxunzai" [("王小明", 10)]])) ∧
    (find_match samplePinyin ["杨洋", "王小明"] "yanyang" =
      ((some "杨洋", some "pinyin_fuzzy"),
        [MatchEvent.fuzzy "yanyang" "yanyang" "杨洋" [("杨洋", 1)]])) := by
  refine ⟨?_, ?_, ?_⟩
  · exact (((C3_fuzzy_tier samplePinyin ["张三", "张山", "李四"] "zhangshn"
      (by decide) (by decide) (by decide)).2 1 (by decide)).1 (by decide)).trans (by decide)
  · exact ((C3_fuzzy_tier samplePinyin ["王小明"] "buxunzai"
      (by decide) (by decide) (by decide)).1 (by decide)).trans (by decide)
  · exact (((C3_fuzzy_tier samplePinyin ["杨洋", "王小明"] "yanyang"
      (by decide) (by decide) (by decide)).2 1 (by decide)).2 ("杨洋", 1)
      (by decide)).trans (by decide)

/-- Claim C4 (confirmed): the tiers are tried in the fixed order exact →
pinyin-exact → pinyin-prefix → fuzzy; in particular, when the candidate's
phonetic key equals some roster entry's key the result kind is `exact` or
`pinyin_exact`, never `pinyin_fuzzy`. -/
theorem C4_cascade_order (gp : String → String) (roster : List String) (c : String)
    (h : ∃ n ∈ roster, gp n = gp (clean_input_name c)) :
    ((find_match gp roster c).1.2 = some "exact" ∨
      (find_match gp roster c).1.2 = some "pinyin_exact") ∧
    (find_match gp roster c).1.2 ≠ some "pinyin_fuzzy" := by
  by_cases h1 : clean_input_name c ∈ roster
  · constructor
    · left
      simp [find_match, if_pos h1]
    · simp [find_match, if_pos h1]
  · obtain ⟨n, hn, hkey⟩ := h
    have hsome : ((name_to_pinyin gp roster).find?
        (fun p => gp (clean_input_name c) == p.2)).isSome := by
      rw [List.find?_isSome]
      exact ⟨(n, gp n), (mem_name_to_pinyin gp roster (n, gp n)).mpr ⟨hn, rfl⟩,
        by simp [hkey]⟩
    obtain ⟨p, hp⟩ := Option.isSome_iff_exists.mp hsome
    constructor
    · right
      simp [find_match, if_neg h1, hp]
    · simp [find_match, if_neg h1, hp]

/-- Witness for C4: a candidate phonetically identical to a roster entry is
never resolved as `pinyin_fuzzy`. -/
theorem C4_cascade_order_witness :
    ((find_match samplePinyin ["杨洋"] "yangyang").1.2 = some "exact" ∨
      (find_match samplePinyin ["杨洋"] "yangyang").1.2 = some "pinyin_exact") ∧
    (find_match samplePinyin ["杨洋"] "yangyang").1.2 ≠ some "pinyin_fuzzy" :=
  C4_cascade_order samplePinyin ["杨洋"] "yangyang" ⟨"杨洋", by decide, by decide⟩

/-- Claim C5 (confirmed): the pinyin-prefix tier (kind string
"pinyin_contains" in the source) uses the symmetric starts-with test, and the
first entry in dict order satisfying it wins, regardless of how many later
entries also satisfy it — no tie detection at this tier. -/
theorem C5_pinyin_contains_first (gp : String → String) (roster : List String)
    (c : String)
    (h1 : clean_input_name c ∉ roster)
    (h2 : ∀ p ∈ name_to_pinyin gp roster, gp (clean_input_name c) ≠ p.2)
    (l1 l2 : List (String × String)) (p : String × String)
    (hsplit : name_to_pinyin gp roster = l1 ++ p :: l2)
    (hl1 : ∀ q ∈ l1, (strStartsWith (gp (clean_input_name c)) q.2
      || strStartsWith q.2 (gp (clean_input_name c))) = false)
    (hp : (strStartsWith (gp (clean_input_name c)) p.2
      || strStartsWith p.2 (gp (clean_input_name c))) = true) :
    find_match gp roster c = ((some p.1, some "pinyin_contains"),
      [MatchEvent.pinyinContains c (gp (clean_input_name c)) p.1 p.2]) := by
  have hfind2 : (name_to_pinyin gp roster).find?
      (fun q => gp (clean_input_name c) == q.2) = none := by
    rw [List.find?_eq_none]
    intro q hq
    simp only [beq_iff_eq]
    exact h2 q hq
  have hfind3 : (name_to_pinyin gp roster).find?
      (fun q => strStartsWith (gp (clean_input_name c)) q.2
        || strStartsWith q.2 (gp (clean_input_name c))) = some p := by
    rw [hsplit]
    exact find?_append_first _ l1 l2 p hl1 hp
  simp only [find_match, if_neg h1, hfind2, hfind3]

/-- Witness for C5: a truncated transcription "zhang" is a prefix of
"zhangsan", so the first entry wins at the contains tier. -/
theorem C5_pinyin_contains_first_witness :
    find_match samplePinyin ["张三", "李四"] "zhang" =
      ((some "张三", some "pinyin_contains"),
        [MatchEvent.pinyinContains "zhang" "zhang" "张三" "zhangsan"]) :=
  C5_pinyin_contains_first samplePinyin ["张三", "李四"] "zhang" (by decide) (by decide)
    [] [("李四", "lisi")] ("张三", "zhangsan") (by decide) (by decide) (by decide)

/-- Claim C6, counterexample: on the input "杨洋同学 对 18 错 2" the extractor
yields `GradeEntry{name:"杨洋同学", correct:18, wrong:18}`, not
`GradeEntry{name:"杨洋", correct:18, wrong:2}`: noise-word stripping lives in
the resolver (not the extractor), and the wrong-count scanner's leftmost match
in this text is "18 错" (number-then-keyword), so the decoded wrong count is
18. -/
theorem C6_counterexample :
    (parse (fun _ => none) "杨洋同学 对 18 错 2").1 = some ⟨"杨洋同学", 18, 18⟩ ∧
    (parse (fun _ => none) "杨洋同学 对 18 错 2").1 ≠ some ⟨"杨洋", 18, 2⟩ := by
  refine ⟨by decide, by decide⟩

/-- Claim C6 (corrected): for "杨洋同学 对 18 错 2" with roster ["杨洋"],
normalization leaves the string unchanged with no removed tokens, the
extractor produces `GradeEntry{name:"杨洋同学", correct:18, wrong:18}` (the
wrong scanner's leftmost match is "18 错"; noise-word stripping happens inside
the resolver), and the resolver on that name returns `Resolved{"杨洋", exact}`
after stripping "同学". -/
theorem C6_scenario :
    normalize_chinese_text "杨洋同学 对 18 错 2" = ("杨洋同学 对 18 错 2", []) ∧
    (parse (fun _ => none) "杨洋同学 对 18 错 2").1 = some ⟨"杨洋同学", 18, 18⟩ ∧
    (find_match samplePinyin ["杨洋"] "杨洋同学").1 = (some "杨洋", some "exact") := by
  refine ⟨by decide, by decide, by decide⟩

/-- Claim C7, counterexample: for "对 5" exactly one count is decodable
(correct = 5, the wrong scanner finds nothing), yet extraction does not
succeed — it fails with reason "no_name_extracted" because the segment before
the first keyword is empty. -/
theorem C7_counterexample :
    extract_count (fun _ => none) CORRECT_KEYWORDS "对 5" = some 5 ∧
    extract_count (fun _ => none) WRONG_KEYWORDS "对 5" = none ∧
    (parse (fun _ => none) "对 5").1 = none ∧
    (parse (fun _ => none) "对 5").2 =
      [ParseEvent.textNormalize "对 5" "对 5" [],
        ParseEvent.parseFail "对 5" "no_name_extracted" ["name"]] := by
  refine ⟨by decide, by decide, by decide, by decide⟩

/-- Claim C7 (corrected): parse fails with `missing_both_counts` exactly when
neither scanner produced a decodable count; and when at least one count is
present *and the trimmed name segment before the first digit/keyword is
nonempty*, extraction succeeds, the missing count defaults to 0, and the
decoded value of each present count (including a decoded 0) is preserved. -/
theorem C7_counts (cn : String → Option Int) (s : String) :
    (ParseEvent.parseFail s "missing_both_counts" ["correct", "wrong"] ∈ (parse cn s).2 ↔
      (extract_count cn CORRECT_KEYWORDS (normalize_chinese_text s).1 = none ∧
        extract_count cn WRONG_KEYWORDS (normalize_chinese_text s).1 = none)) ∧
    ((extract_count cn CORRECT_KEYWORDS (normalize_chinese_text s).1 = none ∧
        extract_count cn WRONG_KEYWORDS (normalize_chinese_text s).1 = none) →
      (parse cn s).1 = none) ∧
    (¬(extract_count cn CORRECT_KEYWORDS (normalize_chinese_text s).1 = none ∧
        extract_count cn WRONG_KEYWORDS (normalize_chinese_text s).1 = none) →
      (⟨trimChars (splitFirstSeg (normalize_chinese_text s).1.data)⟩ : String) ≠ "" →
      (parse cn s).1 = some ⟨⟨trimChars (splitFirstSeg (normalize_chinese_text s).1.data)⟩,
        (extract_count cn CORRECT_KEYWORDS (normalize_chinese_text s).1).getD 0,
        (extract_count cn WRONG_KEYWORDS (normalize_chinese_text s).1).getD 0⟩) := by
  have hd1 : ("missing_both_counts" : String) ≠ "no_name_extracted" := by decide
  by_cases hb : extract_count cn CORRECT_KEYWORDS (normalize_chinese_text s).1 = none ∧
      extract_count cn WRONG_KEYWORDS (normalize_chinese_text s).1 = none
  · refine ⟨⟨fun _ => hb, fun _ => ?_⟩, fun _ => ?_, fun hc _ => absurd hb hc⟩
    · simp [parse, hb]
    · simp [parse, hb]
  · refine ⟨⟨fun hmem => ?_, fun hc => absurd hc hb⟩, fun hc => absurd hc hb, ?_⟩
    · exfalso
      by_cases hname : (⟨trimChars (splitFirstSeg (normalize_chinese_text s).1.data)⟩ :
          String) = ""
      · simp [parse, hb, hname, hd1] at hmem
      · simp [parse, hb, hname] at hmem
    · intro _ hname
      simp [parse, hb, hname]

/-- Witness for C7: one present count (correct = 3) with the other missing
defaults the wrong count to 0 and succeeds. -/
theorem C7_counts_witness :
    (parse (fun _ => none) "王小明 对 3").1 = some ⟨"王小明", 3, 0⟩ := by
  have h := (C7_counts (fun _ => none) "王小明 对 3").2.2 (by decide) (by decide)
  exact h.trans (by decide)

/-- Claim C8 (confirmed): `safe_int_conversion` attempts the direct base-10
parse first — when it succeeds the result is its value and the Chinese
converter is never consulted — and falls back to the Chinese-numeral converter
`cn` exactly when the direct parse fails; when neither succeeds the failure is
signalled as the returned value `none` (the embedding is a total function:
no exception escapes to the caller). -/
theorem C8_decode_order (cn : String → Option Int) (v : String) :
    (∀ n : Int, parseInt10 v = some n → safe_int_conversion cn v = some n) ∧
    (parseInt10 v = none → safe_int_conversion cn v = cn v) ∧
    (parseInt10 v = none → cn v = none → safe_int_conversion cn v = none) := by
  refine ⟨?_, ?_, ?_⟩
  · intro n h
    simp [safe_int_conversion, h]
  · intro h
    simp [safe_int_conversion, h]
  · intro h1 h2
    simp [safe_int_conversion, h1, h2]

/-- Witness for C8: a direct parse, a Chinese-numeral fallback, and a double
failure. -/
theorem C8_decode_order_witness :
    safe_int_conversion (fun _ => none) "42" = some 42 ∧
    safe_int_conversion (fun s => if s = "二十" then some 20 else none) "二十" = some 20 ∧
    safe_int_conversion (fun _ => none) "garbage" = none := by
  refine ⟨(C8_decode_order (fun _ => none) "42").1 42 (by decide),
    ((C8_decode_order (fun s => if s = "二十" then some 20 else none) "二十").2.1
      (by decide)).trans (by decide),
    (C8_decode_order (fun _ => none) "garbage").2.2 (by decide) (by decide)⟩

/-- Claim C9 (confirmed): normalization is idempotent — normalizing an
already-normalized string returns it unchanged with an empty removed-token
list; more generally the removed-token list is exactly ["extra_whitespace"]
when normalization changed the string and empty otherwise; and the embedding
is a total function (normalize never fails). -/
theorem C9_normalize (s : String) :
    normalize_chinese_text (normalize_chinese_text s).1 =
      ((normalize_chinese_text s).1, []) ∧
    ((normalize_chinese_text s).1 = s → (normalize_chinese_text s).2 = []) ∧
    ((normalize_chinese_text s).1 ≠ s → (normalize_chinese_text s).2 =
      ["extra_whitespace"]) := by
  have hidem := normalizedText_idem s
  refine ⟨?_, ?_, ?_⟩
  · simp only [normalize_chinese_text, hidem]
    simp
  · intro h
    have h2 : normalizedText s = s := h
    simp only [normalize_chinese_text]
    rw [if_neg (fun hne => hne h2.symm)]
  · intro h
    have h2 : normalizedText s ≠ s := h
    simp only [normalize_chinese_text]
    rw [if_pos (fun heq => h2 heq.symm)]

/-- Witness for C9: a doubly-spaced input is collapsed (removed-token list
["extra_whitespace"]) and renormalizing its output is the identity. -/
theorem C9_normalize_witness :
    (normalize_chinese_text "杨洋  对 18").2 = ["extra_whitespace"] ∧
    normalize_chinese_text (normalize_chinese_text "杨洋  对 18").1 =
      ((normalize_chinese_text "杨洋  对 18").1, []) :=
  ⟨(C9_normalize "杨洋  对 18").2.2 (by decide), (C9_normalize "杨洋  对 18").1⟩

theorem foldl_distinct_acc_prefix (l : List String) :
    ∀ acc, ∃ t, l.foldl (fun acc n => if n ∈ acc then acc else acc ++ [n]) acc =
      acc ++ t := by
  induction l with
  | nil =>
    intro acc
    exact ⟨[], by simp⟩
  | cons n ns ih =>
    intro acc
    simp only [List.foldl_cons]
    by_cases hn : n ∈ acc
    · rw [if_pos hn]
      exact ih acc
    · rw [if_neg hn]
      obtain ⟨t, ht⟩ := ih (acc ++ [n])
      exact ⟨[n] ++ t, by simp [ht]⟩

theorem distinctNames_cons (n : String) (rest : List String) :
    ∃ t, distinctNames (n :: rest) = n :: t := by
  simp only [distinctNames, List.foldl_cons]
  rw [if_neg (by simp)]
  obtain ⟨t, ht⟩ := foldl_distinct_acc_prefix rest [n]
  exact ⟨t, by simpa using ht⟩

theorem strStartsWith_empty (s : String) : strStartsWith s "" = true := by
  simp [strStartsWith]

/-- Claim C10 (confirmed, implicit behaviour): for a non-empty roster that
contains no empty canonical name and no entry with an empty phonetic key, a
candidate that noise-word stripping plus trimming reduces to the empty string
is resolved — at the pinyin-prefix (contains) tier, because the empty phonetic
key is a prefix of every entry's key — to the first roster entry, rather than
producing NotFound. -/
theorem C10_empty_candidate (gp : String → String) (n : String) (rest : List String)
    (c : String)
    (hclean : clean_input_name c = "")
    (hgp : gp "" = "")
    (hne : "" ∉ n :: rest)
    (hkeys : ∀ name ∈ n :: rest, gp name ≠ "") :
    (find_match gp (n :: rest) c).1 = (some n, some "pinyin_contains") := by
  have h1 : clean_input_name c ∉ n :: rest := by
    rw [hclean]
    exact hne
  have hip : gp (clean_input_name c) = "" := by rw [hclean, hgp]
  have hfind2 : (name_to_pinyin gp (n :: rest)).find?
      (fun q => gp (clean_input_name c) == q.2) = none := by
    rw [List.find?_eq_none]
    intro q hq
    have hq2 := (mem_name_to_pinyin gp (n :: rest) q).mp hq
    simp only [beq_iff_eq, hip]
    intro h0
    exact hkeys q.1 hq2.1 (by rw [← hq2.2, ← h0])
  obtain ⟨t, ht⟩ := distinctNames_cons n rest
  have hn2p : name_to_pinyin gp (n :: rest) =
      (n, gp n) :: t.map (fun x => (x, gp x)) := by
    simp [name_to_pinyin, ht]
  have hfind3 : (name_to_pinyin gp (n :: rest)).find?
      (fun q => strStartsWith (gp (clean_input_name c)) q.2
        || strStartsWith q.2 (gp (clean_input_name c))) = some (n, gp n) := by
    rw [hn2p]
    apply List.find?_cons_of_pos
    simp [hip, strStartsWith_empty]
  simp only [find_match, if_neg h1, hfind2, hfind3]

/-- Witness for C10: the candidate "同学的" consists entirely of noise words,
cleans to the empty string, and resolves to the first (only) roster entry at
the contains tier. -/
theorem C10_empty_candidate_witness :
    (find_match samplePinyin ["杨洋"] "同学的").1 = (some "杨洋", some "pinyin_contains") :=
  C10_empty_candidate samplePinyin "杨洋" [] "同学的" (by decide) (by decide)
    (by decide) (by decide)

end VoiceGrading
